import Mathlib

/-!
Verification of the blueprint-execution harness: security primitives
(path confinement, shell quoting, env-key validation, secret redaction,
truncation), the two sandbox backends' `exec`/creation flows, and the
blueprint execution engine (`executeBlueprint` / `executeValidateNode`).

Each definition is a shallow embedding of the corresponding TypeScript
function; strings are modelled as `String` / `List Char`, JS numbers as
`Nat`/`Int`, thrown exceptions as `Except`, and the effectful sandbox as
an explicit state parameter `σ` threaded through node bodies.
-/

namespace Phi

instance exceptDecEq {ε α : Type} [DecidableEq ε] [DecidableEq α] :
    DecidableEq (Except ε α) := fun
  | .ok a, .ok b =>
    if h : a = b then isTrue (by rw [h]) else isFalse (by simp [h])
  | .ok _, .error _ => isFalse (by simp)
  | .error _, .ok _ => isFalse (by simp)
  | .error e, .error f =>
    if h : e = f then isTrue (by rw [h]) else isFalse (by simp [h])

/-! ## Path confinement (src/util/path.ts, `assertPathConfined`)

The source resolves both paths with node's `path.resolve`, takes
`path.relative(rootResolved, resolved)` and throws iff that relative
path starts with `..` or is absolute.  We model POSIX semantics for
absolute input paths (the callers pass absolute paths): `resolve`
normalises the `/`-separated segment list (dropping empty and `.`
segments, popping on `..`), and `relative` strips the common segment
prefix and prepends one `..` per remaining source segment. -/

/-- Split a path on the separator character, POSIX style. -/
def splitSegs : List Char → List (List Char)
  | [] => [[]]
  | c :: cs =>
    let r := splitSegs cs
    if c = '/' then [] :: r
    else
      match r with
      | [] => [[c]]
      | w :: ws => (c :: w) :: ws

/-- One step of path normalisation: empty and `.` segments are dropped,
`..` pops the last kept segment, anything else is appended. -/
def normStep (acc : List (List Char)) (seg : List Char) : List (List Char) :=
  if seg = [] ∨ seg = ['.'] then acc
  else if seg = ['.', '.'] then acc.dropLast
  else acc ++ [seg]

/-- Node's `path.resolve` on an absolute POSIX path: the normalised
segment list. -/
def resolvePath (p : List Char) : List (List Char) :=
  (splitSegs p).foldl normStep []

/-- Drop the longest common prefix of two segment lists, returning the
two remainders. -/
def dropCommon : List (List Char) → List (List Char) → List (List Char) × List (List Char)
  | a :: as, b :: bs => if a = b then dropCommon as bs else (a :: as, b :: bs)
  | as, bs => (as, bs)

/-- Node's `path.relative` on resolved segment lists: one `..` per
remaining source segment, then the remaining target segments. -/
def relativeSegs (fromSegs toSegs : List (List Char)) : List (List Char) :=
  let r := dropCommon fromSegs toSegs
  List.replicate r.1.length ['.', '.'] ++ r.2

/-- Join segments back into a path with `/` separators. -/
def joinSegs (segs : List (List Char)) : List Char :=
  List.intercalate ['/'] segs

/-- Node's `path.relative(from, to)` for absolute POSIX paths. -/
def relativePath (fromP toP : List Char) : List Char :=
  joinSegs (relativeSegs (resolvePath fromP) (resolvePath toP))

/-- Embedding of `assertPathConfined(candidate, root)`: resolve both,
take the relative path from root to candidate, and throw iff it starts
with `..` or is absolute. -/
def assertPathConfined (candidate root : String) : Except String Unit :=
  let rel := relativePath root.toList candidate.toList
  if ['.', '.'].isPrefixOf rel || rel.head? = some '/' then
    .error "Path confinement violation"
  else .ok ()

/-- Modelled from the spec: the naive string-prefix containment check the
spec names as the vulnerability class assertPathConfined must NOT use
(a root `/tmp/root` naively "contains" `/tmp/root2`). -/
def specStringPrefixContains (candidate root : String) : Bool :=
  root.toList.isPrefixOf candidate.toList

theorem dropCommon_self (l : List (List Char)) : dropCommon l l = ([], []) := by
  induction l with
  | nil => rfl
  | cons a as ih => simp [dropCommon, ih]

theorem relativePath_self (p : List Char) : relativePath p p = [] := by
  simp [relativePath, relativeSegs, dropCommon_self, joinSegs, List.intercalate]

/-- C2: assertPathConfined resolves both paths and decides confinement
via the relative path from root to candidate, never by string prefix: a
path confines itself (for every root), the sibling `/tmp/root2` is
rejected for root `/tmp/root` even though it extends the root as a
string prefix (the naive prefix check written from the spec's words
accepts it), and `/tmp/root/..` (the root's parent) is rejected. -/
theorem assertPathConfined_semantics :
    (∀ root : String, assertPathConfined root root = .ok ())
    ∧ assertPathConfined "/tmp/root2" "/tmp/root" = .error "Path confinement violation"
    ∧ assertPathConfined "/tmp/root/.." "/tmp/root" = .error "Path confinement violation"
    ∧ specStringPrefixContains "/tmp/root2" "/tmp/root" = true
    ∧ assertPathConfined "/tmp/root" "/tmp/root" = .ok () := by
  refine ⟨?_, by decide, by decide, by decide, by decide⟩
  intro root
  simp [assertPathConfined, relativePath_self]

/-! ## Blueprint engine data model (contracts/types.ts, src/blueprint/types.ts)

Node bodies are `async` functions of `(ctx, sandbox)`; the sandbox (and
any world state its effects touch) is modelled as an explicit state
parameter `σ`, so a node body is `RunContext → σ → NodeResult × σ`.
The engine's `opts.onNodeComplete` callback and the executor/step
invocations are recorded in an event trace instead of being performed as
side effects. -/

inductive NodeStatus where
  | success
  | failure
  | skipped
deriving DecidableEq, Repr

/-- Embedding of `NodeResult` (contracts/types.ts). -/
structure NodeResult where
  status : NodeStatus
  output : String
  durationMs : Nat
  error : Option String := none
deriving DecidableEq, Repr

/-- Embedding of `RunContext` (contracts/types.ts); `results` is the
insertion-ordered map a JS object provides. -/
structure RunContext where
  runId : String
  workDir : String
  intent : String
  repo : String
  push : Bool
  env : List (String × String)
  results : List (String × NodeResult)
  specPath : Option String := none
  sandboxType : String := "local"
deriving DecidableEq, Repr

/-- Embedding of `AgenticNode` (src/blueprint/types.ts). -/
structure AgenticNode where
  name : String
  description : String
  skip : Option (RunContext → Bool) := none
  agent : String
  prompt : RunContext → String
  allowedTools : List String := []

/-- One validate step: a named deterministic command. -/
structure ValidateStep (σ : Type) where
  name : String
  exec : RunContext → σ → NodeResult × σ

/-- Embedding of `AnyNode` (src/blueprint/types.ts): the four node
variants, with node bodies as state-passing functions. -/
inductive AnyNode (σ : Type) where
  | preflight (name description : String) (skip : Option (RunContext → Bool))
      (check : RunContext → σ → NodeResult × σ)
  | deterministic (name description : String) (skip : Option (RunContext → Bool))
      (exec : RunContext → σ → NodeResult × σ)
  | agentic (node : AgenticNode)
  | validate (name description : String) (skip : Option (RunContext → Bool))
      (steps : List (ValidateStep σ)) (onFailure : AgenticNode)
      (maxRetries : Option Nat)

def AnyNode.name {σ : Type} : AnyNode σ → String
  | .preflight n _ _ _ => n
  | .deterministic n _ _ _ => n
  | .agentic a => a.name
  | .validate n _ _ _ _ _ => n

def AnyNode.skipFn {σ : Type} : AnyNode σ → Option (RunContext → Bool)
  | .preflight _ _ s _ => s
  | .deterministic _ _ s _ => s
  | .agentic a => a.skip
  | .validate _ _ s _ _ _ => s

/-- Evaluation of `node.skip?.(ctx)`: absent skip predicate means not
skipped. -/
def evalSkip {σ : Type} (node : AnyNode σ) (ctx : RunContext) : Bool :=
  match node.skipFn with
  | some f => f ctx
  | none => false

/-- Embedding of `Blueprint` (src/blueprint/types.ts). -/
structure Blueprint (σ : Type) where
  name : String
  description : String
  nodes : List (AnyNode σ)

/-- Embedding of `EngineOptions` (src/blueprint/engine.ts lines 13-18):
a sandbox (inside `σ`), an agent executor, and an optional
`onNodeComplete` callback.  The interface declares NO start callback;
`onNodeComplete` invocations are recorded as `complete` trace events. -/
structure EngineOptions (σ : Type) where
  agentExecutor : AgenticNode → RunContext → σ → NodeResult × σ

/-- Observable engine activity: `dispatch i` marks `executeNode` being
invoked for the top-level node at index `i`; `stepCall`/`agentCall` mark
a validate step / `agentExecutor.execute` invocation under that node;
`complete` marks an `opts.onNodeComplete` callback invocation (the only
callback `EngineOptions` declares). -/
inductive EngineEvent where
  | dispatch (idx : Nat)
  | stepCall (idx : Nat) (stepName : String)
  | agentCall (idx : Nat) (agentName : String)
  | complete (nodeName : String) (result : NodeResult)
deriving DecidableEq, Repr

/-- Names of the nodes whose completion the engine reported through
`onNodeComplete`, in emission order. -/
def completedNames (evs : List EngineEvent) : List String :=
  evs.filterMap fun e =>
    match e with
    | .complete n _ => some n
    | _ => none

/-- Assignment `ctx.results[name] = result` on a JS object: overwrite in
place when the key exists, append otherwise. -/
def setKey (m : List (String × NodeResult)) (k : String) (v : NodeResult) :
    List (String × NodeResult) :=
  if m.any (fun p => p.1 = k) then
    m.map fun p => if p.1 = k then (k, v) else p
  else m ++ [(k, v)]

/-! ## Blueprint engine (src/blueprint/engine.ts) -/

/-- Inner step loop of `executeValidateNode` (engine.ts lines 98-105):
run every step in order, short-circuiting on the first failure.  Returns
the collected step results, the `allPassed` flag, the new world and the
step-invocation events. -/
def runSteps {σ : Type} (idx : Nat) (steps : List (ValidateStep σ))
    (ctx : RunContext) (w : σ) :
    List NodeResult × Bool × σ × List EngineEvent :=
  match steps with
  | [] => ([], true, w, [])
  | step :: rest =>
    let r := step.exec ctx w
    if r.1.status = .failure then
      ([r.1], false, r.2, [.stepCall idx step.name])
    else
      let t := runSteps idx rest ctx r.2
      (r.1 :: t.1, t.2.1, t.2.2.1, .stepCall idx step.name :: t.2.2.2)

/-- Synthetic success result of a validate attempt (engine.ts lines
107-117): joined step outputs and summed durations. -/
def validateSuccess (stepResults : List NodeResult) : NodeResult :=
  { status := .success
    output := String.intercalate "\n" (stepResults.map (·.output))
    durationMs := stepResults.foldl (fun sum r => sum + r.durationMs) 0
    error := none }

/-- Failure result of the final validate attempt (engine.ts lines
120-128): first failing step's error, or the default message. -/
def validateFailure (stepResults : List NodeResult) : NodeResult :=
  { status := .failure
    output := String.intercalate "\n" (stepResults.map (·.output))
    durationMs := stepResults.foldl (fun sum r => sum + r.durationMs) 0
    error := some (((stepResults.find? (fun r => r.status = .failure)).bind
      (·.error)).getD "Validation failed after max retries") }

/-- Attempt loop of `executeValidateNode` (engine.ts lines 94-132),
counted by attempts remaining (`attemptsLeft = maxRetries - attempt`).
When an attempt fails with retries remaining, `agentExecutor.execute`
runs the `onFailure` node and its NodeResult is DISCARDED (engine.ts
line 131 ignores the awaited value): it is not written to the context,
not reported, and no `complete` event is emitted for it. -/
def validateLoop {σ : Type} (opts : EngineOptions σ) (idx : Nat)
    (steps : List (ValidateStep σ)) (onFailure : AgenticNode)
    (ctx : RunContext) : Nat → σ → NodeResult × σ × List EngineEvent
  | attemptsLeft, w =>
    let s := runSteps idx steps ctx w
    if s.2.1 then
      (validateSuccess s.1, s.2.2.1, s.2.2.2)
    else
      match attemptsLeft with
      | 0 => (validateFailure s.1, s.2.2.1, s.2.2.2)
      | n + 1 =>
        let fix := opts.agentExecutor onFailure ctx s.2.2.1
        let t := validateLoop opts idx steps onFailure ctx n fix.2
        (t.1, t.2.1, s.2.2.2 ++ .agentCall idx onFailure.name :: t.2.2)

/-- Embedding of `executeNode` (engine.ts lines 70-85): dispatch on the
node kind. -/
def executeNode {σ : Type} (opts : EngineOptions σ) (idx : Nat)
    (node : AnyNode σ) (ctx : RunContext) (w : σ) :
    NodeResult × σ × List EngineEvent :=
  match node with
  | .preflight _ _ _ check =>
    let r := check ctx w
    (r.1, r.2, [])
  | .deterministic _ _ _ ex =>
    let r := ex ctx w
    (r.1, r.2, [])
  | .agentic a =>
    let r := opts.agentExecutor a ctx w
    (r.1, r.2, [.agentCall idx a.name])
  | .validate _ _ _ steps onFailure maxRetries =>
    validateLoop opts idx steps onFailure ctx (maxRetries.getD 2) w

/-- The constant skipped NodeResult (engine.ts lines 32-36). -/
def skippedResult : NodeResult :=
  { status := .skipped, output := "", durationMs := 0, error := none }

/-- Main node loop of `executeBlueprint` (engine.ts lines 29-51):
skip check, node execution, result recording into `ctx.results`,
`onNodeComplete` emission, and halt on `failure`. -/
def execLoop {σ : Type} (opts : EngineOptions σ) :
    List (AnyNode σ) → Nat → RunContext → σ →
    List (String × NodeResult) × RunContext × σ × List EngineEvent
  | [], _, ctx, w => ([], ctx, w, [])
  | node :: rest, idx, ctx, w =>
    if evalSkip node ctx then
      let ctx1 : RunContext :=
        { ctx with results := setKey ctx.results node.name skippedResult }
      let t := execLoop opts rest (idx + 1) ctx1 w
      ((node.name, skippedResult) :: t.1, t.2.1, t.2.2.1,
        .complete node.name skippedResult :: t.2.2.2)
    else
      let e := executeNode opts idx node ctx w
      let ctx1 : RunContext :=
        { ctx with results := setKey ctx.results node.name e.1 }
      if e.1.status = .failure then
        ([(node.name, e.1)], ctx1, e.2.1,
          .dispatch idx :: e.2.2 ++ [.complete node.name e.1])
      else
        let t := execLoop opts rest (idx + 1) ctx1 e.2.1
        ((node.name, e.1) :: t.1, t.2.1, t.2.2.1,
          .dispatch idx :: e.2.2 ++ .complete node.name e.1 :: t.2.2.2)

/-- Embedding of `RunReport` (contracts/types.ts); wall-clock duration
and token totals are always written as zeros by the engine itself. -/
structure RunReport where
  runId : String
  blueprint : String
  repo : String
  intent : String
  nodes : List (String × NodeResult)
  totalDurationMs : Nat
  push : Bool
deriving DecidableEq, Repr

/-- Embedding of `executeBlueprint` (engine.ts lines 21-68).  Returns
the report together with the final context, final world and the engine's
event trace. -/
def executeBlueprint {σ : Type} (bp : Blueprint σ) (ctx : RunContext)
    (opts : EngineOptions σ) (w : σ) :
    RunReport × RunContext × σ × List EngineEvent :=
  let r := execLoop opts bp.nodes 0 ctx w
  ({ runId := ctx.runId, blueprint := bp.name, repo := ctx.repo
     intent := ctx.intent, nodes := r.1, totalDurationMs := 0
     push := ctx.push }, r.2.1, r.2.2.1, r.2.2.2)

/-! ## Engine loop lemmas -/

theorem execLoop_length_le {σ : Type} (opts : EngineOptions σ)
    (nodes : List (AnyNode σ)) (idx : Nat) (ctx : RunContext) (w : σ) :
    (execLoop opts nodes idx ctx w).1.length ≤ nodes.length := by
  induction nodes generalizing idx ctx w with
  | nil => simp [execLoop]
  | cons node rest ih =>
    simp only [execLoop]
    split
    · simpa using ih ..
    · split
      · simp
      · simpa using ih ..

theorem execLoop_names {σ : Type} (opts : EngineOptions σ)
    (nodes : List (AnyNode σ)) (idx : Nat) (ctx : RunContext) (w : σ) :
    (execLoop opts nodes idx ctx w).1.map Prod.fst =
      (nodes.take (execLoop opts nodes idx ctx w).1.length).map AnyNode.name := by
  induction nodes generalizing idx ctx w with
  | nil => simp [execLoop]
  | cons node rest ih =>
    simp only [execLoop]
    split
    · simpa using ih ..
    · split
      · simp
      · simpa using ih ..

theorem execLoop_failure_last {σ : Type} (opts : EngineOptions σ)
    (nodes : List (AnyNode σ)) (idx : Nat) (ctx : RunContext) (w : σ) :
    ∀ i p, (execLoop opts nodes idx ctx w).1.get? i = some p →
      p.2.status = .failure →
      i + 1 = (execLoop opts nodes idx ctx w).1.length := by
  induction nodes generalizing idx ctx w with
  | nil => simp [execLoop]
  | cons node rest ih =>
    simp only [execLoop]
    split
    · intro i p hp hf
      match i with
      | 0 =>
        simp only [List.get?] at hp
        cases hp
        simp [skippedResult] at hf
      | i + 1 =>
        simp only [List.get?] at hp
        simpa using ih _ _ _ i p hp hf
    · split
      · intro i p hp hf
        match i with
        | 0 => simp
        | i + 1 => simp [List.get?] at hp
      · next hne =>
        intro i p hp hf
        match i with
        | 0 =>
          simp only [List.get?] at hp
          cases hp
          exact absurd hf hne
        | i + 1 =>
          simp only [List.get?] at hp
          simpa using ih _ _ _ i p hp hf

theorem auxGetLastCons {α : Type} (a : α) (l : List α) (p : α)
    (h : l.getLast? = some p) : (a :: l).getLast? = some p := by
  match l with
  | [] => simp at h
  | b :: t => rw [List.getLast?_cons_cons]; exact h

theorem execLoop_early_stop {σ : Type} (opts : EngineOptions σ)
    (nodes : List (AnyNode σ)) (idx : Nat) (ctx : RunContext) (w : σ) :
    (execLoop opts nodes idx ctx w).1.length < nodes.length →
      ∃ p, (execLoop opts nodes idx ctx w).1.getLast? = some p ∧
        p.2.status = .failure := by
  induction nodes generalizing idx ctx w with
  | nil => simp [execLoop]
  | cons node rest ih =>
    simp only [execLoop]
    split
    · intro hlt
      simp only [List.length_cons, Nat.add_lt_add_iff_right] at hlt
      obtain ⟨p, hp, hf⟩ := ih (idx + 1)
        { ctx with results := setKey ctx.results node.name skippedResult } w hlt
      exact ⟨p, auxGetLastCons _ _ _ hp, hf⟩
    · split
      · next hfail =>
        intro _
        exact ⟨(node.name, (executeNode opts idx node ctx w).1), by simp, hfail⟩
      · intro hlt
        simp only [List.length_cons, Nat.add_lt_add_iff_right] at hlt
        obtain ⟨p, hp, hf⟩ := ih (idx + 1) _ _ hlt
        exact ⟨p, auxGetLastCons _ _ _ hp, hf⟩

def foldResults (rs m : List (String × NodeResult)) : List (String × NodeResult) :=
  rs.foldl (fun acc e => setKey acc e.1 e.2) m

@[simp]
theorem foldResults_nil (m : List (String × NodeResult)) : foldResults [] m = m := rfl

@[simp]
theorem foldResults_cons (e : String × NodeResult) (rs m : List (String × NodeResult)) :
    foldResults (e :: rs) m = foldResults rs (setKey m e.1 e.2) := rfl

theorem execLoop_ctx {σ : Type} (opts : EngineOptions σ)
    (nodes : List (AnyNode σ)) (idx : Nat) (ctx : RunContext) (w : σ) :
    (execLoop opts nodes idx ctx w).2.1 =
      { ctx with results := foldResults (execLoop opts nodes idx ctx w).1 ctx.results } := by
  induction nodes generalizing idx ctx w with
  | nil => rfl
  | cons node rest ih =>
    simp only [execLoop]
    split
    · simpa using ih ..
    · split
      · rfl
      · simpa using ih ..

theorem runSteps_no_dispatch {σ : Type} (idx : Nat)
    (steps : List (ValidateStep σ)) (ctx : RunContext) (w : σ) (i : Nat) :
    EngineEvent.dispatch i ∉ (runSteps idx steps ctx w).2.2.2 := by
  induction steps generalizing w with
  | nil => simp [runSteps]
  | cons step rest ih =>
    simp only [runSteps]
    split
    · simp
    · intro hmem
      rcases List.mem_cons.mp hmem with h | h
      · simp at h
      · exact ih _ h

theorem validateLoop_no_dispatch {σ : Type} (opts : EngineOptions σ) (idx : Nat)
    (steps : List (ValidateStep σ)) (onFailure : AgenticNode)
    (ctx : RunContext) (n : Nat) (w : σ) (i : Nat) :
    EngineEvent.dispatch i ∉ (validateLoop opts idx steps onFailure ctx n w).2.2 := by
  induction n generalizing w with
  | zero =>
    simp only [validateLoop]
    split
    · simpa using runSteps_no_dispatch idx steps ctx w i
    · simpa using runSteps_no_dispatch idx steps ctx w i
  | succ n ih =>
    simp only [validateLoop]
    split
    · simpa using runSteps_no_dispatch idx steps ctx w i
    · intro hmem
      rcases List.mem_append.mp hmem with h | h
      · exact runSteps_no_dispatch _ _ _ _ _ h
      · rcases List.mem_cons.mp h with h | h
        · simp at h
        · exact ih _ h

theorem executeNode_no_dispatch {σ : Type} (opts : EngineOptions σ) (idx : Nat)
    (node : AnyNode σ) (ctx : RunContext) (w : σ) (i : Nat) :
    EngineEvent.dispatch i ∉ (executeNode opts idx node ctx w).2.2 := by
  match node with
  | .preflight _ _ _ check => simp [executeNode]
  | .deterministic _ _ _ ex => simp [executeNode]
  | .agentic a => simp [executeNode]
  | .validate _ _ _ steps onFailure maxRetries =>
    simpa [executeNode] using
      validateLoop_no_dispatch opts idx steps onFailure ctx (maxRetries.getD 2) w i

theorem execLoop_dispatch_bound {σ : Type} (opts : EngineOptions σ)
    (nodes : List (AnyNode σ)) (idx : Nat) (ctx : RunContext) (w : σ) (i : Nat) :
    EngineEvent.dispatch i ∈ (execLoop opts nodes idx ctx w).2.2.2 →
      idx ≤ i ∧ i < idx + (execLoop opts nodes idx ctx w).1.length := by
  induction nodes generalizing idx ctx w with
  | nil => simp [execLoop]
  | cons node rest ih =>
    simp only [execLoop]
    split
    · intro hmem
      simp only [List.length_cons]
      rcases List.mem_cons.mp hmem with h | h
      · simp at h
      · obtain ⟨h1, h2⟩ := ih _ _ _ h
        omega
    · split
      · intro hmem
        simp only [List.length_cons, List.length_nil]
        rcases List.mem_cons.mp hmem with h | h
        · simp only [EngineEvent.dispatch.injEq] at h
          omega
        · rcases List.mem_append.mp h with h | h
          · exact absurd h (executeNode_no_dispatch opts idx node ctx w i)
          · simp at h
      · intro hmem
        simp only [List.length_cons]
        rcases List.mem_cons.mp hmem with h | h
        · simp only [EngineEvent.dispatch.injEq] at h
          omega
        · rcases List.mem_append.mp h with h | h
          · exact absurd h (executeNode_no_dispatch opts idx node ctx w i)
          · rcases List.mem_cons.mp h with h | h
            · simp at h
            · obtain ⟨h1, h2⟩ := ih _ _ _ h
              omega

/-! ## Claim C1: halt on failure -/

/-- C1: if the k-th recorded node result of a run has status failure,
the report contains exactly k+1 node results (0-based index k), those
results are the first k+1 nodes of the blueprint in list order, every
earlier result is not a failure (in particular a skipped result did not
halt the run), and no node beyond index k was ever dispatched. -/
theorem executeBlueprint_halts_on_failure {σ : Type} (bp : Blueprint σ)
    (ctx : RunContext) (opts : EngineOptions σ) (w : σ) (k : Nat)
    (p : String × NodeResult)
    (hk : (executeBlueprint bp ctx opts w).1.nodes.get? k = some p)
    (hfail : p.2.status = .failure) :
    (executeBlueprint bp ctx opts w).1.nodes.length = k + 1
    ∧ (executeBlueprint bp ctx opts w).1.nodes.map Prod.fst =
        (bp.nodes.take (k + 1)).map AnyNode.name
    ∧ (∀ j q, j < k → (executeBlueprint bp ctx opts w).1.nodes.get? j = some q →
        q.2.status ≠ .failure)
    ∧ (∀ i, EngineEvent.dispatch i ∈ (executeBlueprint bp ctx opts w).2.2.2 →
        i ≤ k) := by
  have hkey : (execLoop opts bp.nodes 0 ctx w).1.get? k = some p := hk
  have hlen := execLoop_failure_last opts bp.nodes 0 ctx w k p hkey hfail
  refine ⟨hlen.symm, ?_, ?_, ?_⟩
  · have := execLoop_names opts bp.nodes 0 ctx w
    rw [← hlen] at this
    exact this
  · intro j q hj hq hf
    have := execLoop_failure_last opts bp.nodes 0 ctx w j q hq hf
    omega
  · intro i hmem
    have := execLoop_dispatch_bound opts bp.nodes 0 ctx w i hmem
    omega

/-- Two-node fixture for the halt-on-failure witness: the first node
fails, the second would succeed but must never run. -/
def bpHalt : Blueprint Unit :=
  ⟨"test", "test", [
    .deterministic "fail" "fails" none
      (fun _ w => ({ status := .failure, output := "err", durationMs := 1, error := some "boom" }, w)),
    .deterministic "never" "never runs" none
      (fun _ w => ({ status := .success, output := "ok", durationMs := 1, error := none }, w))]⟩

def ctxBase : RunContext :=
  ⟨"abcd1234", "/tmp/test", "test", "./test", false, [], [], none, "local"⟩

def optsUnit : EngineOptions Unit :=
  ⟨fun _ _ w => ({ status := .success, output := "agent done", durationMs := 100, error := none }, w)⟩

theorem executeBlueprint_halts_on_failure_witness :
    (executeBlueprint bpHalt ctxBase optsUnit ()).1.nodes.length = 0 + 1
    ∧ (executeBlueprint bpHalt ctxBase optsUnit ()).1.nodes.map Prod.fst =
        (bpHalt.nodes.take (0 + 1)).map AnyNode.name :=
  ⟨(executeBlueprint_halts_on_failure bpHalt ctxBase optsUnit () 0
      ("fail", { status := .failure, output := "err", durationMs := 1, error := some "boom" })
      (by decide) (by decide)).1,
   (executeBlueprint_halts_on_failure bpHalt ctxBase optsUnit () 0
      ("fail", { status := .failure, output := "err", durationMs := 1, error := some "boom" })
      (by decide) (by decide)).2.1⟩

/-! ## Claim C10: frame condition on the RunContext -/

theorem setKey_fresh (m : List (String × NodeResult)) (k : String) (v : NodeResult)
    (h : ∀ p ∈ m, p.1 ≠ k) : setKey m k v = m ++ [(k, v)] := by
  simp only [setKey]
  rw [if_neg]
  simp only [List.any_eq_true, not_exists, not_and]
  intro p hp
  simpa using h p hp

theorem foldResults_fresh (rs : List (String × NodeResult)) :
    ∀ m, (∀ e ∈ rs, ∀ p ∈ m, p.1 ≠ e.1) → (rs.map Prod.fst).Nodup →
      foldResults rs m = m ++ rs := by
  induction rs with
  | nil => intro m _ _; simp
  | cons e rs ih =>
    intro m hfresh hnd
    rw [foldResults_cons, setKey_fresh m e.1 e.2 (fun p hp => hfresh e (by simp) p hp)]
    rw [ih (m ++ [(e.1, e.2)]) ?_ (by simpa using hnd.of_cons)]
    · simp
    · intro f hf p hp
      rcases List.mem_append.mp hp with hm | he
      · exact hfresh f (by simp [hf]) p hm
      · simp only [List.mem_singleton] at he
        subst he
        simp only [List.map_cons, List.nodup_cons] at hnd
        intro hc
        exact hnd.1 (hc ▸ List.mem_map_of_mem Prod.fst hf)

/-- C10: with pure node bodies (state effects confined to σ), node
names unique within the blueprint and not yet present in the results
map, executeBlueprint changes no RunContext field but `results`, and
`results` only grows by appending exactly one entry per processed
(executed or skipped) top-level node, keyed by the node's name, in
order — never removing or overwriting an entry. -/
theorem executeBlueprint_frame {σ : Type} (bp : Blueprint σ) (ctx : RunContext)
    (opts : EngineOptions σ) (w : σ)
    (hnd : (bp.nodes.map AnyNode.name).Nodup)
    (hfresh : ∀ p ∈ ctx.results, ∀ node ∈ bp.nodes, p.1 ≠ node.name) :
    (executeBlueprint bp ctx opts w).2.1 =
      { ctx with results := ctx.results ++ (executeBlueprint bp ctx opts w).1.nodes }
    ∧ (executeBlueprint bp ctx opts w).1.nodes.map Prod.fst =
        (bp.nodes.take (executeBlueprint bp ctx opts w).1.nodes.length).map AnyNode.name := by
  have hnames := execLoop_names opts bp.nodes 0 ctx w
  have hctx := execLoop_ctx opts bp.nodes 0 ctx w
  have hsub : ((execLoop opts bp.nodes 0 ctx w).1.map Prod.fst).Sublist
      (bp.nodes.map AnyNode.name) := by
    rw [hnames]
    exact (List.take_sublist _ _).map AnyNode.name
  refine ⟨?_, hnames⟩
  have hfold : foldResults (execLoop opts bp.nodes 0 ctx w).1 ctx.results =
      ctx.results ++ (execLoop opts bp.nodes 0 ctx w).1 := by
    apply foldResults_fresh
    · intro e he p hp
      have : e.1 ∈ (execLoop opts bp.nodes 0 ctx w).1.map Prod.fst :=
        List.mem_map_of_mem Prod.fst he
      have : e.1 ∈ bp.nodes.map AnyNode.name := hsub.mem this
      obtain ⟨node, hnode, hname⟩ := List.mem_map.mp this
      exact hname ▸ hfresh p hp node hnode
    · exact hnd.sublist hsub
  show (execLoop opts bp.nodes 0 ctx w).2.1 = _
  rw [hctx, hfold]
  rfl

/-- Two-node fixture for the frame witness. -/
def bpFrame : Blueprint Unit :=
  ⟨"test", "test", [
    .deterministic "first" "first" none
      (fun _ w => ({ status := .success, output := "hello", durationMs := 1, error := none }, w)),
    .deterministic "second" "second" none
      (fun _ w => ({ status := .success, output := "ok", durationMs := 1, error := none }, w))]⟩

theorem executeBlueprint_frame_witness :
    (executeBlueprint bpFrame ctxBase optsUnit ()).2.1 =
      { ctxBase with
        results := ctxBase.results ++ (executeBlueprint bpFrame ctxBase optsUnit ()).1.nodes } :=
  (executeBlueprint_frame bpFrame ctxBase optsUnit ()
    (by decide) (by simp [ctxBase])).1

/-! ## Claims C3 and C5: the validate node's repair sub-node

Concrete scenario from the repository's own engine tests: one validate
node `check` whose single step `test` fails on the first attempt and
succeeds on the second, with repair node `fix` (default maxRetries = 2).
The world σ = Nat counts step invocations, so the repair can "fix" the
step the way a real repair run changes the sandbox. -/

def fixNode : AgenticNode :=
  ⟨"fix", "fix", none, "claude-code", fun _ => "fix it", []⟩

def flakyStep : ValidateStep Nat :=
  ⟨"test", fun _ n =>
    (if n = 0 then { status := .failure, output := "fail", durationMs := 1, error := some "bad" }
     else { status := .success, output := "ok", durationMs := 1, error := none }, n + 1)⟩

def bpValidate : Blueprint Nat :=
  ⟨"test", "test", [.validate "check" "validate" none [flakyStep] fixNode none]⟩

def optsNat : EngineOptions Nat :=
  ⟨fun _ _ n => ({ status := .success, output := "agent done", durationMs := 100, error := none }, n)⟩

/-- C5 (code bug): in the scenario above the repair node `fix` DOES
execute (its agentCall is in the trace), but its NodeResult is recorded
nowhere: the final context results map holds only `check`, `fix` is not
a key, and the report's node list contains no `fix` entry — engine.ts
line 131 discards the awaited repair result, contradicting the spec and
the repository's own tests, which expect the repair result to be
recorded and visible. -/
theorem validate_repair_result_discarded :
    (executeBlueprint bpValidate ctxBase optsNat 0).2.1.results =
      [("check", { status := .success, output := "ok", durationMs := 1, error := none })]
    ∧ (executeBlueprint bpValidate ctxBase optsNat 0).2.1.results.lookup "fix" = none
    ∧ EngineEvent.agentCall 0 "fix" ∈ (executeBlueprint bpValidate ctxBase optsNat 0).2.2.2
    ∧ (executeBlueprint bpValidate ctxBase optsNat 0).1.nodes.map Prod.fst = ["check"] := by
  decide

/-- C3 (code bug): in the same scenario the full engine event trace
shows the repair sub-node `fix` executing (agentCall) with NO completion
event ever emitted for it, and the only callback the engine interface
offers is onNodeComplete — there is no start callback at all, so no
observer can see a start/complete pair for any node, and the repair
sub-node's execution is reported with neither: the claimed
start/output/complete ordering contract does not hold on this engine. -/
theorem validate_repair_events_asymmetric :
    (executeBlueprint bpValidate ctxBase optsNat 0).2.2.2 =
      [.dispatch 0, .stepCall 0 "test", .agentCall 0 "fix", .stepCall 0 "test",
        .complete "check" { status := .success, output := "ok", durationMs := 1, error := none }]
    ∧ completedNames (executeBlueprint bpValidate ctxBase optsNat 0).2.2.2 = ["check"]
    ∧ "fix" ∉ completedNames (executeBlueprint bpValidate ctxBase optsNat 0).2.2.2
    ∧ EngineEvent.agentCall 0 "fix" ∈ (executeBlueprint bpValidate ctxBase optsNat 0).2.2.2 := by
  decide

/-! ## Shell quoting (src/util/shell.ts, `shellQuote`)

The source wraps each element in single quotes, escaping an embedded
single quote as the four characters quote-backslash-quote-quote, and
joins with spaces; it throws on an empty argv. -/

/-- The `.replace(/'/g, "'\\''")` step for a single character. -/
def escapeQuoteChar (c : Char) : List Char :=
  if c = '\'' then ['\'', '\\', '\'', '\''] else [c]

/-- One quoted element: a single-quoted copy of the escaped body. -/
def quoteArg (s : List Char) : List Char :=
  '\'' :: s.flatMap escapeQuoteChar ++ ['\'']

/-- The `.join(" ")` step. -/
def joinSpace : List (List Char) → List Char
  | [] => []
  | [a] => a
  | a :: b :: rest => a ++ ' ' :: joinSpace (b :: rest)

/-- Embedding of `shellQuote(argv)`. -/
def shellQuote (argv : List String) : Except String String :=
  match argv with
  | [] => .error "Empty argv"
  | _ :: _ => .ok (String.mk (joinSpace (argv.map fun a => quoteArg a.toList)))

/-! ## Truncation and env-key validation (src/util/sanitize.ts, daytona.ts) -/

def MAX_OUTPUT_BYTES : Nat := 50 * 1024

/-- Embedding of `truncate(output, maxBytes)`; the byte-level cut is
modelled character-exactly (the UTF-8 boundary detail is irrelevant to
the claims, which quantify over lengths, not encodings). -/
def truncate (output : String) (maxBytes : Nat) : String :=
  if output.length ≤ maxBytes then output
  else String.mk (output.toList.take maxBytes) ++ "\n[truncated]"

def isEnvKeyStartChar (c : Char) : Bool := c.isAlpha || c = '_'

def isEnvKeyRestChar (c : Char) : Bool := c.isAlphanum || c = '_'

/-- Embedding of the env-key validation regex
`ENV_KEY_RE = /^[A-Za-z_][A-Za-z0-9_]*$/` (daytona.ts line 11). -/
def validateEnvKey (k : String) : Bool :=
  match k.toList with
  | [] => false
  | c :: cs => isEnvKeyStartChar c && cs.all isEnvKeyRestChar

/-! ## Sandbox exec, both backends (src/sandbox/local.ts, daytona.ts)

The underlying process / control-plane behaviour is an input to the
embedding: `ProcOutcome` is what node's `execFile` callback reports
(`err.killed` / `err.code`), `SessionOutcome` what the remote session
call returns or throws.  Everything the source does around that
behaviour — confinement, validation, command building, result shaping —
is embedded faithfully. -/

/-- Embedding of `ExecOptions` (contracts/types.ts). -/
structure ExecOptions where
  argv : List String
  cwd : String
  timeout : Nat
  env : List (String × String) := []
  maxOutput : Option Nat := none

/-- Embedding of `ExecResult` (contracts/types.ts). -/
structure ExecResult where
  exitCode : Int
  stdout : String
  stderr : String
  durationMs : Nat
  timedOut : Bool
deriving DecidableEq, Repr

/-- What node's `execFile` reports to its callback: success, or an
error object with its `killed` flag and optional numeric `code` (a
process killed on timeout carries `killed = true` and no code). -/
inductive ProcOutcome where
  | completed (stdout stderr : String)
  | failed (killed : Bool) (code : Option Int) (stdout stderr : String)
deriving DecidableEq, Repr

/-- Embedding of `execFilePromise` (local.ts lines 11-55): throws
"Empty argv" when argv has no (or a falsy, i.e. empty) first element;
otherwise shapes the process outcome into an ExecResult — `timedOut`
is the error's `killed` flag, `exitCode` is the error's numeric code,
else 1 for a codeless error, else 0; stdout/stderr are truncated.
Wall-clock duration is modelled as 0. -/
def execFilePromise (argv : List String) (maxOutput : Option Nat)
    (outcome : ProcOutcome) : Except String ExecResult :=
  if argv.head?.getD "" = "" then .error "Empty argv"
  else
    let mo := maxOutput.getD MAX_OUTPUT_BYTES
    match outcome with
    | .completed out err => .ok ⟨0, truncate out mo, truncate err mo, 0, false⟩
    | .failed killed code out err =>
      .ok ⟨code.getD 1, truncate out mo, truncate err mo, 0, killed⟩

/-- Embedding of the local backend's `exec` (local.ts lines 90-98):
confinement check on cwd, then spawn.  NOTE: the local backend performs
NO env-key validation — the env map is handed to the process spawner
as data, never serialised into a command string. -/
def localSandboxExec (workDir : String) (execOpts : ExecOptions)
    (outcome : ProcOutcome) : Except String ExecResult :=
  match assertPathConfined execOpts.cwd workDir with
  | .error e => .error e
  | .ok _ => execFilePromise execOpts.argv execOpts.maxOutput outcome

/-- What `executeSessionCommand` produces: a command record (optional
exit code and streams), or a thrown error whose message does or does
not match `/timeout/i`. -/
inductive SessionOutcome where
  | completed (exitCode : Option Int) (stdout stderr : Option String)
  | errored (isTimeout : Bool)
deriving DecidableEq, Repr

/-- Embedding of the Daytona backend's `exec` (daytona.ts lines
65-112): confinement check, env-key validation against ENV_KEY_RE
(throws on the first invalid key), command building via shellQuote
(the cd/env-value quotes are singleton lists and never fail; the argv
quote throws on an empty argv), then the session call: a missing exit
code defaults to 1, streams default to "" and are truncated, a thrown
timeout yields exitCode 124 with timedOut = true, any other thrown
session error is re-thrown. -/
def daytonaExec (workDir : String) (execOpts : ExecOptions)
    (outcome : SessionOutcome) : Except String ExecResult :=
  match assertPathConfined execOpts.cwd workDir with
  | .error e => .error e
  | .ok _ =>
    if !(execOpts.env.all fun p => validateEnvKey p.1) then
      .error "Invalid env key"
    else
      match shellQuote execOpts.argv with
      | .error e => .error e
      | .ok _quoted =>
        let mo := execOpts.maxOutput.getD MAX_OUTPUT_BYTES
        match outcome with
        | .completed ec so se =>
          .ok ⟨ec.getD 1, truncate (so.getD "") mo, truncate (se.getD "") mo, 0, false⟩
        | .errored true => .ok ⟨124, "", "", 0, true⟩
        | .errored false => .error "session error"

/-- C4 counterexample: the local backend does NOT validate env keys.
With the invalid key "BAD KEY" (rejected by ENV_KEY_RE) and a confined
cwd, the local exec returns an ordinary result instead of throwing,
while the remote exec throws — refuting "for both sandbox backends,
exec throws exactly when an environment-variable key fails
validation... or when cwd violates sandbox-root confinement". -/
theorem exec_env_key_not_validated_locally :
    validateEnvKey "BAD KEY" = false
    ∧ localSandboxExec "/tmp/hx"
        ⟨["echo"], "/tmp/hx", 1000, [("BAD KEY", "x")], none⟩ (.completed "" "") =
      .ok ⟨0, "", "", 0, false⟩
    ∧ daytonaExec "/tmp/hx"
        ⟨["echo"], "/tmp/hx", 1000, [("BAD KEY", "x")], none⟩
        (.completed (some 0) (some "") (some "")) = .error "Invalid env key" := by
  decide

/-- C4 as amended: ordinary failure and timeout never throw on either
backend — with a confined cwd, validated env keys and a nonempty argv,
local exec returns a result for every process outcome (a killed,
codeless process yields timedOut = true with exit code 1), remote exec
returns the conventional ⟨124, timedOut⟩ result on a thrown timeout and
a plain result on completion; env-key validation throwing holds on the
REMOTE backend only (the local backend never validates env keys), and a
confinement violation throws on both backends. -/
theorem exec_throw_conditions (workDir : String) (execOpts : ExecOptions)
    (hc : assertPathConfined execOpts.cwd workDir = .ok ())
    (henv : execOpts.env.all (fun p => validateEnvKey p.1) = true)
    (hargv : execOpts.argv.head?.getD "" ≠ "") :
    (∀ outcome, ∃ r, localSandboxExec workDir execOpts outcome = .ok r)
    ∧ (∀ so se, ∃ r, localSandboxExec workDir execOpts (.failed true none so se) = .ok r
        ∧ r.timedOut = true ∧ r.exitCode = 1)
    ∧ daytonaExec workDir execOpts (.errored true) = .ok ⟨124, "", "", 0, true⟩
    ∧ (∀ ec so se, ∃ r, daytonaExec workDir execOpts (.completed ec so se) = .ok r
        ∧ r.timedOut = false)
    ∧ (∀ opts2 outcome2, assertPathConfined opts2.cwd workDir = .ok () →
        opts2.env.all (fun p => validateEnvKey p.1) = false →
        ∃ e, daytonaExec workDir opts2 outcome2 = .error e)
    ∧ (∀ opts3 o1 o2,
        assertPathConfined opts3.cwd workDir = .error "Path confinement violation" →
        (∃ e, localSandboxExec workDir opts3 o1 = .error e)
        ∧ (∃ e, daytonaExec workDir opts3 o2 = .error e)) := by
  obtain ⟨a, t, ha⟩ : ∃ a t, execOpts.argv = a :: t := by
    cases hx : execOpts.argv with
    | nil => rw [hx] at hargv; simp at hargv
    | cons a t => exact ⟨a, t, rfl⟩
  have hlocal : ∀ outcome, localSandboxExec workDir execOpts outcome =
      execFilePromise execOpts.argv execOpts.maxOutput outcome := by
    intro outcome
    unfold localSandboxExec
    rw [hc]
  have hday : ∀ outcome, daytonaExec workDir execOpts outcome =
      match outcome with
      | .completed ec so se =>
        .ok ⟨ec.getD 1, truncate (so.getD "") (execOpts.maxOutput.getD MAX_OUTPUT_BYTES),
          truncate (se.getD "") (execOpts.maxOutput.getD MAX_OUTPUT_BYTES), 0, false⟩
      | .errored true => .ok ⟨124, "", "", 0, true⟩
      | .errored false => .error "session error" := by
    intro outcome
    unfold daytonaExec
    rw [hc, henv, ha]
    simp [shellQuote]
  refine ⟨?_, ?_, ?_, ?_, ?_, ?_⟩
  · intro outcome
    rw [hlocal outcome]
    unfold execFilePromise
    rw [if_neg hargv]
    cases outcome with
    | completed out err => exact ⟨_, rfl⟩
    | failed killed code out err => exact ⟨_, rfl⟩
  · intro so se
    rw [hlocal _]
    unfold execFilePromise
    rw [if_neg hargv]
    exact ⟨_, rfl, rfl, rfl⟩
  · rw [hday _]
  · intro ec so se
    rw [hday _]
    exact ⟨_, rfl, rfl⟩
  · intro opts2 outcome2 hc2 henv2
    refine ⟨"Invalid env key", ?_⟩
    unfold daytonaExec
    rw [hc2, henv2]
    simp
  · intro opts3 o1 o2 hc3
    constructor
    · exact ⟨_, by unfold localSandboxExec; rw [hc3]⟩
    · exact ⟨_, by unfold daytonaExec; rw [hc3]⟩

theorem exec_throw_conditions_witness :
    ∃ r, localSandboxExec "/tmp/hx" ⟨["echo"], "/tmp/hx", 1000, [("PATH", "x")], none⟩
      (.failed true none "" "") = .ok r ∧ r.timedOut = true ∧ r.exitCode = 1 :=
  (exec_throw_conditions "/tmp/hx" ⟨["echo"], "/tmp/hx", 1000, [("PATH", "x")], none⟩
    (by decide) (by decide) (by decide)).2.1 "" ""

/-! ## Sandbox creation and cleanup (local.ts, daytona.ts)

Creation is an orchestration of effectful steps; the embedding takes
each step's success as a Bool input and returns the thrown error (if
any) together with whether the provisioned resource — the remote
container, or the local working directory — still exists when the call
returns. -/

/-- Embedding of `createDaytonaSandbox`'s control flow (daytona.ts
lines 36-57): the container is created, then clone / createBranch /
checkoutBranch run inside a try whose catch deletes the container and
rethrows; `createSession` (line 56) runs AFTER that try block, so its
failure propagates with the container still alive.  Returns (thrown
error or ok, container-still-exists). -/
def createDaytonaSandbox (cloneOk branchOk checkoutOk sessionOk : Bool) :
    Except String Unit × Bool :=
  if cloneOk = false then (.error "clone failed", false)
  else if branchOk = false then (.error "createBranch failed", false)
  else if checkoutOk = false then (.error "checkoutBranch failed", false)
  else if sessionOk = false then (.error "createSession failed", true)
  else (.ok (), true)

/-- Embedding of `createLocalSandbox`'s control flow (local.ts lines
57-84): `mkdir(workDir)` provisions the directory, then
`git worktree add` runs with NO try/catch — a worktree failure
propagates with the directory (and any partial worktree) left behind.
(The later gpgsign config step ignores its errors.)  Returns (thrown
error or ok, workDir-still-exists). -/
def createLocalSandbox (worktreeOk : Bool) : Except String Unit × Bool :=
  if worktreeOk = false then (.error "worktree add failed", true)
  else (.ok (), true)

/-- C9 counterexample: a failed `git worktree add` leaves the local
working directory behind, and a failed `createSession` (post-bootstrap
setup before the sandbox handle is returned) leaves the remote
container alive — refuting "the backend deletes the resources it
provisioned ... before the error propagates" for any step of
post-provision bootstrap. -/
theorem sandbox_creation_leaks_on_late_failure :
    createLocalSandbox false = (.error "worktree add failed", true)
    ∧ createDaytonaSandbox true true true false = (.error "createSession failed", true) := by
  decide

/-- C9 as amended: the remote backend does delete the container before
propagating a clone, branch-creation or checkout failure (no orphan on
those paths); but a session-creation failure (remote) or a worktree
failure (local) propagates without cleanup. -/
theorem daytona_bootstrap_cleanup (cloneOk branchOk checkoutOk sessionOk : Bool)
    (h : cloneOk = false ∨ branchOk = false ∨ checkoutOk = false) :
    (∃ e, (createDaytonaSandbox cloneOk branchOk checkoutOk sessionOk).1 = .error e)
    ∧ (createDaytonaSandbox cloneOk branchOk checkoutOk sessionOk).2 = false := by
  cases cloneOk <;> cases branchOk <;> cases checkoutOk <;>
    simp [createDaytonaSandbox] at h ⊢

theorem daytona_bootstrap_cleanup_witness :
    (∃ e, (createDaytonaSandbox false true true true).1 = .error e)
    ∧ (createDaytonaSandbox false true true true).2 = false :=
  daytona_bootstrap_cleanup false true true true (Or.inl rfl)

/-! ## Claim C6: shellQuote round-trips under POSIX splitting

`lexPosix` is a POSIX field splitter restricted to the constructs
shellQuote emits plus ordinary text: single quotes make everything up to
the closing quote literal, a backslash outside quotes makes the next
character literal, unquoted spaces separate words, and a quoted empty
sequence still yields a (possibly empty) word. -/

def lexPosix (inQuote escaped : Bool) (cur : List Char) (started : Bool) :
    List Char → List (List Char)
  | [] => if started then [cur] else []
  | c :: cs =>
    if escaped then lexPosix false false (cur ++ [c]) true cs
    else if inQuote then
      if c = '\'' then lexPosix false false cur started cs
      else lexPosix true false (cur ++ [c]) started cs
    else if c = '\'' then lexPosix true false cur true cs
    else if c = '\\' then lexPosix false true cur started cs
    else if c = ' ' then
      if started then cur :: lexPosix false false [] false cs
      else lexPosix false false [] false cs
    else lexPosix false false (cur ++ [c]) true cs

/-- Re-splitting a quoted command string under POSIX single-quote
rules. -/
def splitPosix (s : String) : List String :=
  (lexPosix false false [] false s.toList).map String.mk

theorem lexPosix_quoted_body (a : List Char) :
    ∀ cur rest, lexPosix true false cur true (a.flatMap escapeQuoteChar ++ rest) =
      lexPosix true false (cur ++ a) true rest := by
  induction a with
  | nil => intro cur rest; simp
  | cons c a ih =>
    intro cur rest
    by_cases hc : c = '\''
    · subst hc
      simp only [List.flatMap_cons, escapeQuoteChar, if_pos rfl, List.append_assoc,
        List.cons_append, List.nil_append]
      show lexPosix true false cur true
        ('\'' :: '\\' :: '\'' :: '\'' :: (a.flatMap escapeQuoteChar ++ rest)) = _
      rw [show ∀ xs, lexPosix true false cur true ('\'' :: xs) =
          lexPosix false false cur true xs from fun xs => by simp [lexPosix]]
      rw [show ∀ xs, lexPosix false false cur true ('\\' :: xs) =
          lexPosix false true cur true xs from fun xs => by simp [lexPosix]]
      rw [show ∀ xs, lexPosix false true cur true ('\'' :: xs) =
          lexPosix false false (cur ++ ['\'']) true xs from fun xs => by simp [lexPosix]]
      rw [show ∀ xs, lexPosix false false (cur ++ ['\'']) true ('\'' :: xs) =
          lexPosix true false (cur ++ ['\'']) true xs from fun xs => by simp [lexPosix]]
      rw [ih]
      simp
    · simp only [List.flatMap_cons, escapeQuoteChar, if_neg hc, List.cons_append,
        List.nil_append]
      rw [show ∀ xs, lexPosix true false cur true (c :: xs) =
          lexPosix true false (cur ++ [c]) true xs from fun xs => by simp [lexPosix, hc]]
      rw [ih]
      simp

theorem lexPosix_quoted_arg (a cur : List Char) (started : Bool) (rest : List Char) :
    lexPosix false false cur started (quoteArg a ++ rest) =
      lexPosix false false (cur ++ a) true rest := by
  simp only [quoteArg, List.cons_append, List.append_assoc, List.singleton_append]
  rw [show ∀ xs, lexPosix false false cur started ('\'' :: xs) =
      lexPosix true false cur true xs from fun xs => by simp [lexPosix]]
  simp only [List.nil_append]
  rw [lexPosix_quoted_body a cur ('\'' :: rest)]
  rw [show ∀ xs, lexPosix true false (cur ++ a) true ('\'' :: xs) =
      lexPosix false false (cur ++ a) true xs from fun xs => by simp [lexPosix]]

theorem lexPosix_joinSpace (l : List (List Char)) (h : l ≠ []) :
    lexPosix false false [] false (joinSpace (l.map quoteArg)) = l := by
  induction l with
  | nil => exact absurd rfl h
  | cons a t ih =>
    cases t with
    | nil =>
      show lexPosix false false [] false (joinSpace [quoteArg a]) = [a]
      rw [show joinSpace [quoteArg a] = quoteArg a ++ [] from by simp [joinSpace]]
      rw [lexPosix_quoted_arg a [] false []]
      simp [lexPosix]
    | cons b t2 =>
      show lexPosix false false [] false
        (joinSpace (quoteArg a :: quoteArg b :: (t2.map quoteArg))) = a :: b :: t2
      rw [show joinSpace (quoteArg a :: quoteArg b :: (t2.map quoteArg)) =
          quoteArg a ++ ' ' :: joinSpace (quoteArg b :: (t2.map quoteArg)) from rfl]
      rw [lexPosix_quoted_arg a [] false _]
      rw [show ∀ xs, lexPosix false false ([] ++ a) true (' ' :: xs) =
          ([] ++ a) :: lexPosix false false [] false xs from fun xs => by simp [lexPosix]]
      rw [show joinSpace (quoteArg b :: (t2.map quoteArg)) =
          joinSpace ((b :: t2).map quoteArg) from by simp [joinSpace]]
      rw [ih (by simp)]
      simp

/-- C6: for every non-empty argument vector, re-splitting the output of
shellQuote under POSIX single-quote rules reproduces the original
vector exactly — including empty strings and elements containing single
quotes, backticks and dollar signs, since the statement quantifies over
all character sequences — and shellQuote fails on an empty argv. -/
theorem shellQuote_posix_roundtrip (argv : List String) (h : argv ≠ []) :
    (∃ q, shellQuote argv = .ok q ∧ splitPosix q = argv)
    ∧ shellQuote [] = .error "Empty argv" := by
  refine ⟨?_, rfl⟩
  obtain ⟨a, t, ha⟩ : ∃ a t, argv = a :: t := by
    cases hx : argv with
    | nil => exact absurd hx h
    | cons a t => exact ⟨a, t, rfl⟩
  subst ha
  refine ⟨_, rfl, ?_⟩
  show ((lexPosix false false [] false
    (String.mk (joinSpace ((a :: t).map fun s => quoteArg s.toList))).toList).map String.mk) = _
  have htl : (String.mk (joinSpace ((a :: t).map fun s => quoteArg s.toList))).toList =
      joinSpace (((a :: t).map String.toList).map quoteArg) := by
    simp [String.toList, List.map_map]
    rfl
  rw [htl, lexPosix_joinSpace _ (by simp)]
  rw [List.map_map]
  exact List.map_id'' (fun s => rfl) _

theorem shellQuote_posix_roundtrip_witness :
    (∃ q, shellQuote ["echo", "", "it's", "`cmd`", "$HOME"] = .ok q
      ∧ splitPosix q = ["echo", "", "it's", "`cmd`", "$HOME"])
    ∧ shellQuote [] = .error "Empty argv" :=
  shellQuote_posix_roundtrip ["echo", "", "it's", "`cmd`", "$HOME"] (by simp)

/-! ## Global replacement (the `.replace(new RegExp(escaped, "g"), replacement)`
step of `redact`, src/util/sanitize.ts lines 224-241)

The escaped value is a literal pattern, so the JS global replace is:
repeatedly find the leftmost occurrence, substitute the replacement
template for it, continue after the replacement (replaced text is not
rescanned).  `findSplit` finds the leftmost occurrence;
`getSubstitution` embeds the JS GetSubstitution processing of the
replacement template (`$$`, `$&`, dollar-backquote, `$'`; no capture
groups exist, so `$n` and `$<` stay literal); `replaceAllFuel` iterates
with an explicit fuel (the string length bounds the number of
replacements, since the pattern is nonempty) while tracking the consumed
subject prefix that dollar-backquote refers to. -/

def findSplit (p : List Char) : List Char → Option (List Char × List Char)
  | [] => if p = [] then some ([], []) else none
  | c :: cs =>
    if p.isPrefixOf (c :: cs) then some ([], (c :: cs).drop p.length)
    else (findSplit p cs).map fun q => (c :: q.1, q.2)

/-- JS GetSubstitution on the replacement template: `$$` is a literal
dollar, `$&` inserts the matched substring, dollar-backquote (written
`'\x60'`) inserts the portion of the subject before the match, `$'` the
portion after it; any other use of `$` is literal because the pattern
has no capture groups. -/
def getSubstitution (matched before after : List Char) : List Char → List Char
  | [] => []
  | c :: rest =>
    if c = '$' then
      match rest with
      | [] => [c]
      | d :: rest2 =>
        if d = '$' then '$' :: getSubstitution matched before after rest2
        else if d = '&' then matched ++ getSubstitution matched before after rest2
        else if d = '\x60' then before ++ getSubstitution matched before after rest2
        else if d = '\'' then after ++ getSubstitution matched before after rest2
        else c :: d :: getSubstitution matched before after rest2
    else c :: getSubstitution matched before after rest

theorem getSubstitution_no_dollar (matched before after : List Char) :
    ∀ r, '$' ∉ r → getSubstitution matched before after r = r := by
  intro r
  induction r with
  | nil => intro _; rfl
  | cons c rest ih =>
    intro h
    simp only [List.mem_cons, not_or] at h
    unfold getSubstitution
    rw [if_neg (fun hc => h.1 hc.symm), ih h.2]

def replaceAllFuel (p r : List Char) : Nat → List Char → List Char → List Char
  | 0, _, s => s
  | fuel + 1, pre, s =>
    match findSplit p s with
    | none => s
    | some q =>
      q.1 ++ getSubstitution p (pre ++ q.1) q.2 r ++
        replaceAllFuel p r fuel (pre ++ q.1 ++ p) q.2

/-- Global replacement of the literal pattern `p` using the replacement
template `r`.  (In `redact` the pattern is an env value of length ≥ 8,
so the empty-pattern guard is never taken; it only closes the fuel
artifact.) -/
def replaceAll (p r s : List Char) : List Char :=
  if p.isEmpty then s else replaceAllFuel p r s.length [] s

/-- Boolean occurrence test used for concrete evaluation. -/
def containsInfix (p s : List Char) : Bool :=
  (findSplit p s).isSome

theorem findSplit_eq (p : List Char) :
    ∀ s a b, findSplit p s = some (a, b) → s = a ++ p ++ b := by
  intro s
  induction s with
  | nil =>
    intro a b h
    unfold findSplit at h
    split at h
    · next hp =>
      simp only [Option.some.injEq, Prod.mk.injEq] at h
      simp [hp, ← h.1, ← h.2]
    · exact absurd h (by simp)
  | cons c cs ih =>
    intro a b h
    unfold findSplit at h
    split at h
    · next hpre =>
      obtain ⟨t, ht⟩ := List.isPrefixOf_iff_prefix.mp hpre
      simp only [Option.some.injEq, Prod.mk.injEq] at h
      rw [← h.1, ← h.2, ← ht, List.drop_left]
      simp
    · cases hfs : findSplit p cs with
      | none => rw [hfs] at h; simp at h
      | some q =>
        rw [hfs] at h
        simp only [Option.map_some', Option.some.injEq, Prod.mk.injEq] at h
        have hcs := ih q.1 q.2 (by rw [hfs])
        rw [← h.1, ← h.2]
        simp [hcs]

theorem findSplit_none (p : List Char) :
    ∀ s, findSplit p s = none → ¬ p <:+: s := by
  intro s
  induction s with
  | nil =>
    intro h hinf
    have hp : p = [] := List.sublist_nil.mp hinf.sublist
    rw [hp] at h
    simp [findSplit] at h
  | cons c cs ih =>
    intro h hinf
    unfold findSplit at h
    split at h
    · simp at h
    · next hpre =>
      rcases List.infix_cons_iff.mp hinf with hpfx | hinf2
      · exact hpre (List.isPrefixOf_iff_prefix.mpr hpfx)
      · cases hfs : findSplit p cs with
        | none => exact ih hfs hinf2
        | some q => rw [hfs] at h; simp at h

theorem findSplit_leftmost (p : List Char) (hp : p ≠ []) :
    ∀ s a b, findSplit p s = some (a, b) → ¬ p <:+: a := by
  intro s
  induction s with
  | nil =>
    intro a b h hinf
    unfold findSplit at h
    split at h
    · next hnil => exact hp hnil
    · simp at h
  | cons c cs ih =>
    intro a b h hinf
    unfold findSplit at h
    split at h
    · simp only [Option.some.injEq, Prod.mk.injEq] at h
      rw [← h.1] at hinf
      exact hp (List.sublist_nil.mp hinf.sublist)
    · next hpre =>
      cases hfs : findSplit p cs with
      | none => rw [hfs] at h; simp at h
      | some q =>
        rw [hfs] at h
        simp only [Option.map_some', Option.some.injEq, Prod.mk.injEq] at h
        rw [← h.1] at hinf
        rcases List.infix_cons_iff.mp hinf with hpfx | hinf2
        · have hcs := findSplit_eq p cs q.1 q.2 hfs
          have h1 : (c :: q.1) <+: (c :: cs) :=
            ⟨p ++ q.2, by rw [hcs]; simp⟩
          exact hpre (List.isPrefixOf_iff_prefix.mpr (hpfx.trans h1))
        · exact ih q.1 q.2 (by rw [hfs]) hinf2

theorem containsInfix_iff (p s : List Char) :
    containsInfix p s = true ↔ p <:+: s := by
  unfold containsInfix
  cases hfs : findSplit p s with
  | none =>
    simp only [Option.isSome_none, Bool.false_eq_true, false_iff]
    exact findSplit_none p s hfs
  | some q =>
    simp only [Option.isSome_some, true_iff]
    exact ⟨q.1, q.2, (findSplit_eq p s q.1 q.2 hfs).symm⟩

/-- Decomposition of an occurrence inside a concatenation: it lies in
the left part, lies in the right part, or straddles the boundary. -/
theorem infix_split {α : Type} {p x y : List α} (h : p <:+: x ++ y) :
    p <:+: x ∨ p <:+: y ∨
      ∃ p₁ p₂, p = p₁ ++ p₂ ∧ p₁ ≠ [] ∧ p₂ ≠ [] ∧ p₁ <:+ x ∧ p₂ <+: y := by
  obtain ⟨s, t, hst⟩ := h
  have hst2 : s ++ (p ++ t) = x ++ y := by rw [← hst]; simp
  rcases List.append_eq_append_iff.mp hst2 with ⟨a2, hx, hpt⟩ | ⟨c2, _, hy⟩
  · rcases List.append_eq_append_iff.mp hpt with ⟨b2, ha2, _⟩ | ⟨c2, hp2, hy2⟩
    · exact Or.inl ⟨s, b2, by rw [hx, ha2]; simp⟩
    · by_cases hane : a2 = []
      · subst hane
        simp only [List.nil_append] at hp2
        exact Or.inr (Or.inl (List.IsPrefix.isInfix ⟨t, by rw [hy2, ← hp2]⟩))
      · by_cases hcne : c2 = []
        · subst hcne
          rw [List.append_nil] at hp2
          exact Or.inl (List.IsSuffix.isInfix ⟨s, by rw [hx, hp2]⟩)
        · exact Or.inr (Or.inr ⟨a2, c2, hp2, hane, hcne, ⟨s, hx.symm⟩, ⟨t, hy2.symm⟩⟩)
  · exact Or.inr (Or.inl ⟨c2, t, by rw [hy]; simp⟩)

theorem prefix_head_mem {α : Type} {p : List α} {a : α} {t : List α}
    (h : p <+: a :: t) (hne : p ≠ []) : a ∈ p := by
  match p, hne with
  | c :: p2, _ =>
    obtain ⟨u, hu⟩ := h
    rw [List.cons_append] at hu
    injection hu with h1 _
    rw [h1]
    exact List.mem_cons_self ..

theorem suffix_last_mem {α : Type} {p l : List α} {a : α}
    (h : p <:+ l) (hne : p ≠ []) (hl : l.getLast? = some a) : a ∈ p := by
  rcases List.eq_nil_or_concat p with rfl | ⟨p2, b, rfl⟩
  · exact absurd rfl hne
  · obtain ⟨u, hu⟩ := h
    have hb : l.getLast? = some b := by
      rw [← hu, List.concat_eq_append, ← List.append_assoc]
      exact List.getLast?_concat _
    rw [hl] at hb
    injection hb with hab
    rw [hab]
    simp

theorem replaceAllFuel_no_self (p r : List Char) (hp : p ≠ [])
    (hb1 : '[' ∉ p) (hb2 : ']' ∉ p) (hpr : ¬ p <:+: r) (hdr : '$' ∉ r)
    (hrh : ∃ t2, r = '[' :: t2) (hrl : ∃ t2, r = t2 ++ [']']) :
    ∀ fuel pre s, s.length ≤ fuel → ¬ p <:+: replaceAllFuel p r fuel pre s := by
  intro fuel
  induction fuel with
  | zero =>
    intro pre s hs hinf
    have hnil : s = [] := List.length_eq_zero.mp (Nat.le_zero.mp hs)
    subst hnil
    exact hp (List.sublist_nil.mp hinf.sublist)
  | succ fuel ih =>
    intro pre s hs hinf
    unfold replaceAllFuel at hinf
    cases hfs : findSplit p s with
    | none =>
      rw [hfs] at hinf
      exact findSplit_none p s hfs hinf
    | some q =>
      rw [hfs] at hinf
      simp only [List.append_assoc] at hinf
      rw [getSubstitution_no_dollar p (pre ++ q.1) q.2 r hdr] at hinf
      have hsq := findSplit_eq p s q.1 q.2 hfs
      have hlen : q.2.length ≤ fuel := by
        have h1 : s.length = q.1.length + (p.length + q.2.length) := by
          rw [hsq]; simp
        have h2 : 0 < p.length := List.length_pos.mpr hp
        omega
      rcases infix_split hinf with h1 | h23 | hspan
      · exact findSplit_leftmost p hp s q.1 q.2 hfs h1
      · rcases infix_split h23 with hr | hrest | hspan2
        · exact hpr hr
        · exact ih (pre ++ (q.1 ++ p)) q.2 hlen hrest
        · obtain ⟨p₁, p₂, hpe, hne1, _, hsuf, _⟩ := hspan2
          obtain ⟨t2, ht2⟩ := hrl
          have : (']' : Char) ∈ p₁ :=
            suffix_last_mem hsuf hne1 (by rw [ht2]; exact List.getLast?_concat _)
          exact hb2 (hpe ▸ List.mem_append_left p₂ this)
      · obtain ⟨p₁, p₂, hpe, _, hne2, _, hpre⟩ := hspan
        obtain ⟨t2, ht2⟩ := hrh
        rw [ht2, List.cons_append] at hpre
        have : ('[' : Char) ∈ p₂ := prefix_head_mem hpre hne2
        exact hb1 (hpe ▸ List.mem_append_right p₁ this)

theorem replaceAllFuel_no_other (p r q : List Char) (hp : p ≠ [])
    (hb1 : '[' ∉ q) (hb2 : ']' ∉ q) (hqr : ¬ q <:+: r) (hdr : '$' ∉ r)
    (hrh : ∃ t2, r = '[' :: t2) (hrl : ∃ t2, r = t2 ++ [']']) :
    ∀ fuel pre s, s.length ≤ fuel → ¬ q <:+: s →
      ¬ q <:+: replaceAllFuel p r fuel pre s := by
  intro fuel
  induction fuel with
  | zero => intro pre s _ hqs hinf; exact hqs hinf
  | succ fuel ih =>
    intro pre s hs hqs hinf
    unfold replaceAllFuel at hinf
    cases hfs : findSplit p s with
    | none => rw [hfs] at hinf; exact hqs hinf
    | some qq =>
      rw [hfs] at hinf
      simp only [List.append_assoc] at hinf
      rw [getSubstitution_no_dollar p (pre ++ qq.1) qq.2 r hdr] at hinf
      have hsq := findSplit_eq p s qq.1 qq.2 hfs
      have hlen : qq.2.length ≤ fuel := by
        have h1 : s.length = qq.1.length + (p.length + qq.2.length) := by
          rw [hsq]; simp
        have h2 : 0 < p.length := List.length_pos.mpr hp
        omega
      have hpre1 : qq.1 <:+: s := ⟨[], p ++ qq.2, by rw [hsq]; simp⟩
      have hsuf2 : qq.2 <:+: s := ⟨qq.1 ++ p, [], by rw [hsq]; simp⟩
      rcases infix_split hinf with h1 | h23 | hspan
      · exact hqs (h1.trans hpre1)
      · rcases infix_split h23 with hr | hrest | hspan2
        · exact hqr hr
        · exact ih (pre ++ (qq.1 ++ p)) qq.2 hlen (fun hc => hqs (hc.trans hsuf2)) hrest
        · obtain ⟨p₁, p₂, hpe, hne1, _, hsuf, _⟩ := hspan2
          obtain ⟨t2, ht2⟩ := hrl
          have : (']' : Char) ∈ p₁ :=
            suffix_last_mem hsuf hne1 (by rw [ht2]; exact List.getLast?_concat _)
          exact hb2 (hpe ▸ List.mem_append_left p₂ this)
      · obtain ⟨p₁, p₂, hpe, _, hne2, _, hpre⟩ := hspan
        obtain ⟨t2, ht2⟩ := hrh
        rw [ht2, List.cons_append] at hpre
        have : ('[' : Char) ∈ p₂ := prefix_head_mem hpre hne2
        exact hb1 (hpe ▸ List.mem_append_right p₁ this)

theorem replaceAll_no_self (p r s : List Char) (hp : p ≠ [])
    (hb1 : '[' ∉ p) (hb2 : ']' ∉ p) (hpr : ¬ p <:+: r) (hdr : '$' ∉ r)
    (hrh : ∃ t2, r = '[' :: t2) (hrl : ∃ t2, r = t2 ++ [']']) :
    ¬ p <:+: replaceAll p r s := by
  unfold replaceAll
  rw [if_neg (by simpa using hp)]
  exact replaceAllFuel_no_self p r hp hb1 hb2 hpr hdr hrh hrl s.length [] s (Nat.le_refl _)

theorem replaceAll_no_other (p r q s : List Char)
    (hb1 : '[' ∉ q) (hb2 : ']' ∉ q) (hqr : ¬ q <:+: r) (hdr : '$' ∉ r)
    (hrh : ∃ t2, r = '[' :: t2) (hrl : ∃ t2, r = t2 ++ [']'])
    (hqs : ¬ q <:+: s) : ¬ q <:+: replaceAll p r s := by
  unfold replaceAll
  split
  · exact hqs
  · next hpe =>
    exact replaceAllFuel_no_other p r q (by simpa using hpe) hb1 hb2 hqr hdr hrh hrl
      s.length [] s (Nat.le_refl _) hqs

/-! ## Secret redaction (src/util/sanitize.ts, `redact`)

The source filters env entries to values of length ≥ 8, sorts them by
value length descending (stable, as Array.prototype.sort is), and for
each entry globally replaces its value using the replacement template
`[REDACTED:<NAME>]` when the name case-insensitively ends in
KEY/TOKEN/SECRET/PASSWORD/CREDENTIAL, else `[REDACTED]` — the template
being subject to JS GetSubstitution, so dollar sequences in the NAME are
interpreted (see `getSubstitution`). -/

def SECRET_SUFFIXES : List (List Char) :=
  ["KEY".toList, "TOKEN".toList, "SECRET".toList, "PASSWORD".toList,
   "CREDENTIAL".toList]

/-- Embedding of the `SECRET_PATTERNS` test: case-insensitive suffix
match of the env name against the five secret suffixes. -/
def isSecretName (name : List Char) : Bool :=
  SECRET_SUFFIXES.any fun suf => suf.isSuffixOf (name.map Char.toUpper)

/-- The replacement string chosen for one env entry. -/
def redactMarker (name : List Char) : List Char :=
  if isSecretName name then "[REDACTED:".toList ++ name ++ [']']
  else "[REDACTED]".toList

/-- Stable insertion step of the JS `sort((a, b) => b.len - a.len)`
(Array.prototype.sort is stable): the new, originally earlier entry goes
after every strictly longer entry and before every entry of equal or
shorter value length, so equal-length entries keep their original
relative order. -/
def insertByLen (e : List Char × List Char) :
    List (List Char × List Char) → List (List Char × List Char)
  | [] => [e]
  | f :: fs =>
    if f.2.length ≤ e.2.length then e :: f :: fs else f :: insertByLen e fs

def sortByLenDesc : List (List Char × List Char) → List (List Char × List Char)
  | [] => []
  | e :: es => insertByLen e (sortByLenDesc es)

/-- The entries `redact` actually processes: values of length ≥ 8,
longest first (stable). -/
def redactEntries (env : List (List Char × List Char)) :
    List (List Char × List Char) :=
  sortByLenDesc (env.filter fun e => 8 ≤ e.2.length)

/-- Embedding of `redact(output, env)` (sanitize.ts lines 224-241). -/
def redact (output : List Char) (env : List (List Char × List Char)) : List Char :=
  (redactEntries env).foldl (fun acc e => replaceAll e.2 (redactMarker e.1) acc) output

theorem redactMarker_head (n : List Char) : ∃ t, redactMarker n = '[' :: t := by
  unfold redactMarker
  split
  · exact ⟨"REDACTED:".toList ++ n ++ [']'],
      by rw [show ("[REDACTED:".toList) = '[' :: "REDACTED:".toList from by decide]; simp⟩
  · exact ⟨"REDACTED]".toList, by decide⟩

theorem redactMarker_last (n : List Char) : ∃ t, redactMarker n = t ++ [']'] := by
  unfold redactMarker
  split
  · exact ⟨"[REDACTED:".toList ++ n, by simp⟩
  · exact ⟨"[REDACTED".toList, by decide⟩

theorem mem_insertByLen (e x : List Char × List Char) :
    ∀ l, x ∈ insertByLen e l ↔ x = e ∨ x ∈ l := by
  intro l
  induction l with
  | nil => simp [insertByLen]
  | cons f fs ih =>
    unfold insertByLen
    split
    · simp
    · simp only [List.mem_cons, ih]
      tauto

theorem mem_sortByLenDesc (x : List Char × List Char) :
    ∀ l, x ∈ sortByLenDesc l ↔ x ∈ l := by
  intro l
  induction l with
  | nil => simp [sortByLenDesc]
  | cons e es ih =>
    unfold sortByLenDesc
    rw [mem_insertByLen]
    simp [ih]

theorem mem_redactEntries (env : List (List Char × List Char))
    (e : List Char × List Char) :
    e ∈ redactEntries env ↔ e ∈ env ∧ 8 ≤ e.2.length := by
  unfold redactEntries
  rw [mem_sortByLenDesc]
  simp

theorem insertByLen_head (e : List Char × List Char)
    (fs : List (List Char × List Char)) (y : List Char × List Char)
    (hy : (insertByLen e fs).head? = some y) : y = e ∨ fs.head? = some y := by
  cases fs with
  | nil =>
    simp only [insertByLen, List.head?_cons, Option.some.injEq] at hy
    exact Or.inl hy.symm
  | cons g gs =>
    unfold insertByLen at hy
    split at hy
    · simp only [List.head?_cons, Option.some.injEq] at hy
      exact Or.inl hy.symm
    · simp only [List.head?_cons, Option.some.injEq] at hy
      exact Or.inr (by simp [hy])

theorem chain'_insertByLen (e : List Char × List Char) :
    ∀ l, List.Chain' (fun a b => b.2.length ≤ a.2.length) l →
      List.Chain' (fun a b => b.2.length ≤ a.2.length) (insertByLen e l) := by
  intro l
  induction l with
  | nil => intro _; simp [insertByLen]
  | cons f fs ih =>
    intro h
    obtain ⟨hf, hfs⟩ := List.chain'_cons'.mp h
    unfold insertByLen
    split
    · next hle =>
      exact List.chain'_cons'.mpr ⟨fun y hy => by
        simp only [List.head?_cons, Option.mem_def, Option.some.injEq] at hy
        rw [← hy]
        exact hle, h⟩
    · next hgt =>
      refine List.chain'_cons'.mpr ⟨?_, ih hfs⟩
      intro y hy
      rcases insertByLen_head e fs y hy with rfl | hy2
      · exact Nat.le_of_lt (Nat.not_le.mp hgt)
      · exact hf y hy2

theorem chain'_sortByLenDesc :
    ∀ l, List.Chain' (fun a b => b.2.length ≤ a.2.length) (sortByLenDesc l) := by
  intro l
  induction l with
  | nil => simp [sortByLenDesc]
  | cons e es ih => exact chain'_insertByLen e _ ih

/-- Stability witness: an entry list already in non-increasing
value-length order — equal-length entries in their original relative
order included — is left exactly as it is.  This fails for any sort
that reorders equal-length entries. -/
theorem sortByLenDesc_sorted_id :
    ∀ l, List.Chain' (fun a b => b.2.length ≤ a.2.length) l →
      sortByLenDesc l = l := by
  intro l
  induction l with
  | nil => intro _; rfl
  | cons e es ih =>
    intro h
    obtain ⟨hf, hes⟩ := List.chain'_cons'.mp h
    show insertByLen e (sortByLenDesc es) = e :: es
    rw [ih hes]
    cases es with
    | nil => rfl
    | cons f fs =>
      unfold insertByLen
      rw [if_pos (hf f rfl)]

theorem redactMarker_no_dollar (n : List Char) (h : '$' ∉ n) :
    '$' ∉ redactMarker n := by
  unfold redactMarker
  split
  · intro hc
    rcases List.mem_append.mp hc with hc1 | hc2
    · rcases List.mem_append.mp hc1 with hc3 | hc4
      · exact absurd hc3 (by decide)
      · exact h hc4
    · exact absurd hc2 (by decide)
  · intro hc
    exact absurd hc (by decide)

/-- Preservation: a value that does not occur in the text, has no
square brackets and is not inside any applied marker stays absent
through the whole redaction fold. -/
theorem redactFold_preserves (q : List Char)
    (hb1 : '[' ∉ q) (hb2 : ']' ∉ q) :
    ∀ (es : List (List Char × List Char)) (s : List Char),
      (∀ f ∈ es, ¬ q <:+: redactMarker f.1) →
      (∀ f ∈ es, '$' ∉ redactMarker f.1) →
      ¬ q <:+: s →
      ¬ q <:+: es.foldl (fun acc e => replaceAll e.2 (redactMarker e.1) acc) s := by
  intro es
  induction es with
  | nil => intro s _ _ hqs; exact hqs
  | cons e es ih =>
    intro s hmar hdol hqs
    simp only [List.foldl_cons]
    refine ih _ (fun f hf => hmar f (by simp [hf]))
      (fun f hf => hdol f (by simp [hf])) ?_
    exact replaceAll_no_other e.2 (redactMarker e.1) q s hb1 hb2
      (hmar e (by simp)) (hdol e (by simp))
      (redactMarker_head e.1) (redactMarker_last e.1) hqs

/-- Core hygiene invariant of the redaction fold: every processed value
is absent from the final text, provided each value is nonempty, has no
square brackets, and does not occur inside any entry's marker. -/
theorem redactFold_no_infix :
    ∀ (es : List (List Char × List Char)) (s : List Char),
      (∀ e ∈ es, e.2 ≠ [] ∧ '[' ∉ e.2 ∧ ']' ∉ e.2 ∧ '$' ∉ redactMarker e.1 ∧
        ∀ f ∈ es, ¬ e.2 <:+: redactMarker f.1) →
      ∀ e ∈ es, ¬ e.2 <:+: es.foldl (fun acc x => replaceAll x.2 (redactMarker x.1) acc) s := by
  intro es
  induction es with
  | nil => intro s _ e he; simp at he
  | cons e0 es ih =>
    intro s H e he
    simp only [List.foldl_cons]
    rcases List.mem_cons.mp he with rfl | he2
    · obtain ⟨hne, hb1, hb2, hdol, hmar⟩ := H e (by simp)
      refine redactFold_preserves e.2 hb1 hb2 es _
        (fun f hf => hmar f (by simp [hf]))
        (fun f hf => (H f (by simp [hf])).2.2.2.1) ?_
      exact replaceAll_no_self e.2 (redactMarker e.1) s hne hb1 hb2
        (hmar e (by simp)) hdol (redactMarker_head e.1) (redactMarker_last e.1)
    · exact ih _ (fun f hf => by
        obtain ⟨h1, h2, h3, h4, h5⟩ := H f (by simp [hf])
        exact ⟨h1, h2, h3, h4, fun g hg => h5 g (by simp [hg])⟩) e he2

/-- C8 counterexample: the output of redact can contain a ≥8-char env
value verbatim, two ways.  (1) One env value can equal text produced by
another entry's replacement: env X has the ≥8-char value "[REDACTED]!!"
and Y the value "Y_value_12"; redacting "Y_value_12!!" rewrites it to
"[REDACTED]!!", which contains X's value verbatim.  (2) A `$&` in a
secret-suffixed env NAME makes the JS replacement substitution re-insert
the matched secret into the marker: the entry X$&KEY = "secret99value"
redacts its own value to "[REDACTED:Xsecret99valueKEY]", leaking the
value verbatim. -/
theorem redact_leaves_long_value_verbatim :
    redact "Y_value_12!!".toList
      [("X".toList, "[REDACTED]!!".toList), ("Y".toList, "Y_value_12".toList)] =
      "[REDACTED]!!".toList
    ∧ containsInfix "[REDACTED]!!".toList
        (redact "Y_value_12!!".toList
          [("X".toList, "[REDACTED]!!".toList), ("Y".toList, "Y_value_12".toList)]) = true
    ∧ 8 ≤ ("[REDACTED]!!".toList).length
    ∧ redact "secret99value".toList
        [("X$&KEY".toList, "secret99value".toList)] =
      "[REDACTED:Xsecret99valueKEY]".toList
    ∧ containsInfix "secret99value".toList
        (redact "secret99value".toList
          [("X$&KEY".toList, "secret99value".toList)]) = true
    ∧ 8 ≤ ("secret99value".toList).length := by
  decide

/-- C8 as amended: redact runs one global replacement pass per env value
of length ≥ 8, longest value first (the processed entry list is sorted
by non-increasing value length, stably: an env list already in that
order, equal lengths included, is processed exactly in its original
order), and values shorter than 8 characters get no pass at all (an
all-short env map leaves the text unchanged); when no ≥8 value contains
a square bracket or occurs inside any entry's replacement marker, and no
processed entry's NAME contains a dollar sign (a `$&` in a name makes
the replacement substitution re-insert the matched secret), the output
contains no ≥8-character env value verbatim. -/
theorem redact_value_hygiene (env : List (List Char × List Char)) (out : List Char)
    (H : ∀ e ∈ env, 8 ≤ e.2.length → '[' ∉ e.2 ∧ ']' ∉ e.2 ∧
      ∀ f ∈ env, containsInfix e.2 (redactMarker f.1) = false)
    (Hd : ∀ f ∈ env, 8 ≤ f.2.length → '$' ∉ f.1) :
    (∀ e ∈ env, 8 ≤ e.2.length → containsInfix e.2 (redact out env) = false)
    ∧ (∀ e ∈ env, e.2.length < 8 → e ∉ redactEntries env)
    ∧ ((∀ e ∈ env, e.2.length < 8) → redact out env = out)
    ∧ List.Chain' (fun a b => b.2.length ≤ a.2.length) (redactEntries env)
    ∧ (List.Chain' (fun a b => b.2.length ≤ a.2.length)
        (env.filter fun e => 8 ≤ e.2.length) →
      redactEntries env = env.filter fun e => 8 ≤ e.2.length) := by
  refine ⟨?_, ?_, ?_, chain'_sortByLenDesc _, fun hs => sortByLenDesc_sorted_id _ hs⟩
  · intro e he hlen
    refine Bool.eq_false_iff.mpr fun hc => ?_
    refine redactFold_no_infix (redactEntries env) out ?_ e
      ((mem_redactEntries env e).mpr ⟨he, hlen⟩) ((containsInfix_iff _ _).mp hc)
    intro e2 he2
    obtain ⟨henv2, hlen2⟩ := (mem_redactEntries env e2).mp he2
    obtain ⟨hb1, hb2, hmar⟩ := H e2 henv2 hlen2
    refine ⟨?_, hb1, hb2, redactMarker_no_dollar e2.1 (Hd e2 henv2 hlen2), ?_⟩
    · intro hnil
      rw [hnil] at hlen2
      simp at hlen2
    · intro f hf hinf
      obtain ⟨hfenv, _⟩ := (mem_redactEntries env f).mp hf
      exact (Bool.eq_false_iff.mp (hmar f hfenv)) ((containsInfix_iff _ _).mpr hinf)
  · intro e he hlen hmem
    obtain ⟨_, hlen2⟩ := (mem_redactEntries env e).mp hmem
    omega
  · intro hall
    have hfil : env.filter (fun e => 8 ≤ e.2.length) = [] := by
      rw [List.filter_eq_nil_iff]
      intro e he
      simpa using Nat.not_le.mpr (hall e he)
    simp [redact, redactEntries, hfil, sortByLenDesc]

theorem redact_value_hygiene_witness :
    containsInfix "secret_token_1".toList
      (redact "the secret_token_1 leaked".toList
        [("GH_TOKEN".toList, "secret_token_1".toList)]) = false :=
  (redact_value_hygiene [("GH_TOKEN".toList, "secret_token_1".toList)]
    "the secret_token_1 leaked".toList (by decide) (by decide)).1
    ("GH_TOKEN".toList, "secret_token_1".toList) (by decide) (by decide)

/-- C7 counterexample: three ways the claim fails on the code.  The
name-based pass runs only for values of length ≥ 8 — the secret-named
entry API_KEY with the 3-char value "abc" is not redacted at all (its
occurrence survives verbatim).  An occurrence of a secret-named entry's
value that lies inside a longer entry's replaced occurrence vanishes
with it instead of being replaced by its own tag: A_KEY's value
"secret99" occurs in "xxsecret99yy", yet the output is exactly
B_TOKEN's tag and never contains "[REDACTED:A_KEY]".  And a `$&` in a
secret-suffixed name makes the JS replacement substitution re-insert
the matched secret, so the occurrence is not replaced with the claimed
tagged marker "[REDACTED:X$&KEY]" but with a string containing the
secret. -/
theorem redact_name_pass_requires_length :
    isSecretName "API_KEY".toList = true
    ∧ redact "abc".toList [("API_KEY".toList, "abc".toList)] = "abc".toList
    ∧ containsInfix "abc".toList
        (redact "abc".toList [("API_KEY".toList, "abc".toList)]) = true
    ∧ isSecretName "A_KEY".toList = true
    ∧ 8 ≤ ("secret99".toList).length
    ∧ redact "xxsecret99yy".toList
        [("A_KEY".toList, "secret99".toList),
         ("B_TOKEN".toList, "xxsecret99yy".toList)] = "[REDACTED:B_TOKEN]".toList
    ∧ containsInfix "[REDACTED:A_KEY]".toList
        (redact "xxsecret99yy".toList
          [("A_KEY".toList, "secret99".toList),
           ("B_TOKEN".toList, "xxsecret99yy".toList)]) = false
    ∧ isSecretName "X$&KEY".toList = true
    ∧ redact "secret99value".toList
        [("X$&KEY".toList, "secret99value".toList)] =
      "[REDACTED:Xsecret99valueKEY]".toList
    ∧ containsInfix "[REDACTED:X$&KEY]".toList
        (redact "secret99value".toList
          [("X$&KEY".toList, "secret99value".toList)]) = false := by
  decide

/-- C7 as amended: for a single-entry env whose name case-insensitively
ends in a secret suffix, contains no dollar sign (a `$&` in the name
would make the replacement substitution re-insert the matched secret),
and whose value has length ≥ 8, contains no square bracket and does not
occur inside its own tag, redact is exactly one global replacement of
the value by the tagged marker `[REDACTED:<NAME>]`: the value no longer
occurs in the output, and whenever it occurred in the input the tagged
marker occurs in the output. -/
theorem redact_secret_name_single (n v out : List Char)
    (hlen : 8 ≤ v.length) (hsec : isSecretName n = true) (hd : '$' ∉ n)
    (hb1 : '[' ∉ v) (hb2 : ']' ∉ v)
    (hm : containsInfix v (redactMarker n) = false) :
    redact out [(n, v)] = replaceAll v (redactMarker n) out
    ∧ redactMarker n = "[REDACTED:".toList ++ n ++ [']']
    ∧ containsInfix v (redact out [(n, v)]) = false
    ∧ (containsInfix v out = true →
        containsInfix (redactMarker n) (redact out [(n, v)]) = true) := by
  have hone : redact out [(n, v)] = replaceAll v (redactMarker n) out := by
    simp [redact, redactEntries, sortByLenDesc, insertByLen, hlen]
  have hne : v ≠ [] := by
    intro hc
    rw [hc] at hlen
    simp at hlen
  refine ⟨hone, by simp [redactMarker, hsec], ?_, ?_⟩
  · rw [hone]
    refine Bool.eq_false_iff.mpr fun hc => ?_
    exact replaceAll_no_self v (redactMarker n) out hne hb1 hb2
      (fun hinf => (Bool.eq_false_iff.mp hm) ((containsInfix_iff _ _).mpr hinf))
      (redactMarker_no_dollar n hd)
      (redactMarker_head n) (redactMarker_last n)
      ((containsInfix_iff _ _).mp hc)
  · intro hocc
    rw [hone]
    unfold replaceAll
    rw [if_neg (by simpa using hne)]
    obtain ⟨q, hq⟩ : ∃ q, findSplit v out = some q := by
      unfold containsInfix at hocc
      cases hq : findSplit v out with
      | none => rw [hq] at hocc; simp at hocc
      | some q => exact ⟨q, rfl⟩
    cases hout : out with
    | nil =>
      rw [hout] at hocc
      unfold containsInfix findSplit at hocc
      rw [if_neg hne] at hocc
      simp at hocc
    | cons c cs =>
      rw [← hout]
      have hlen1 : out.length = cs.length + 1 := by rw [hout]; rfl
      rw [hlen1]
      have hstep : replaceAllFuel v (redactMarker n) (cs.length + 1) [] out =
          q.1 ++ getSubstitution v ([] ++ q.1) q.2 (redactMarker n) ++
            replaceAllFuel v (redactMarker n) cs.length ([] ++ q.1 ++ v) q.2 := by
        conv_lhs => rw [replaceAllFuel]
        rw [hq]
      rw [hstep, getSubstitution_no_dollar v ([] ++ q.1) q.2 (redactMarker n)
        (redactMarker_no_dollar n hd)]
      exact (containsInfix_iff _ _).mpr
        ⟨q.1, replaceAllFuel v (redactMarker n) cs.length ([] ++ q.1 ++ v) q.2, rfl⟩

theorem redact_secret_name_single_witness :
    containsInfix "secretvalue1".toList
      (redact "has secretvalue1 inside".toList
        [("API_KEY".toList, "secretvalue1".toList)]) = false
    ∧ containsInfix (redactMarker "API_KEY".toList)
        (redact "has secretvalue1 inside".toList
          [("API_KEY".toList, "secretvalue1".toList)]) = true :=
  ⟨(redact_secret_name_single "API_KEY".toList "secretvalue1".toList
      "has secretvalue1 inside".toList (by decide) (by decide) (by decide)
      (by decide) (by decide) (by decide)).2.2.1,
   (redact_secret_name_single "API_KEY".toList "secretvalue1".toList
      "has secretvalue1 inside".toList (by decide) (by decide) (by decide)
      (by decide) (by decide) (by decide)).2.2.2 (by decide)⟩

end Phi
